import Mathlib

/-!
Verification of the Gem Puzzle (N-puzzle) search core:
state construction, successor generation, solvability check,
Manhattan-distance heuristic and the batch evaluation harness.

The definitions below are shallow embeddings of the Python sources
`utils/gem_puzzle.py`, `utils/dataset_creation.py` and `tests/lab_test.py`.
Machine integers are modelled as `Nat`/`Int`; fallible constructors and
the evaluation harness are modelled in the `Except` monad; Python list
objects touched by in-place mutation are modelled, where object identity
matters, by an explicit heap of tile lists.
-/

/-- Floor integer square root, modelling Python's `int(len(tile_list) ** 0.5)`.
`isqrtGo n k` is the largest `m ≤ k` with `m * m ≤ n`. -/
def isqrtGo (n : Nat) : Nat → Nat
  | 0 => 0
  | k + 1 => if (k + 1) * (k + 1) ≤ n then k + 1 else isqrtGo n k

/-- Floor integer square root of `n` (search below `n` itself suffices). -/
def isqrt (n : Nat) : Nat := isqrtGo n n

/-- A successfully constructed `GemPuzzleState` from `utils/gem_puzzle.py`:
board width `size`, row-major `tile_list` (value `size*size` is the blank)
and the cached `blank_pos`. -/
structure GemPuzzleState where
  size : Nat
  tile_list : List Nat
  blank_pos : Nat
  deriving DecidableEq, Repr

/-- `GemPuzzleState.__init__` on an actual tile list: computes
`size = int(len(tile_list) ** 0.5)`, raises when the length is not a
perfect square, finds the blank as `tile_list.index(size**2)` when the
sentinel is present and raises otherwise. -/
def GemPuzzleState.construct (tile_list : List Nat) : Except String GemPuzzleState :=
  let size := isqrt tile_list.length
  if tile_list.length ≠ size ^ 2 then
    .error "Tile list size should be a perfect square."
  else
    let blank_value := size ^ 2
    let blank_pos : Int := if blank_value ∈ tile_list then tile_list.indexOf blank_value else -1
    if blank_pos = -1 then
      .error "State should contain max value indicating the blank tile's position."
    else
      .ok { size := size, tile_list := tile_list, blank_pos := blank_pos.toNat }

/-- The raw object produced by `GemPuzzleState.__init__`: on the default
`tile_list = None` path the constructor returns early, leaving `size` and
`blank_pos` set to Python `None` (modelled `none`) and never assigning the
`tile_list` attribute (modelled `none`). -/
structure PyGemPuzzleObj where
  size : Option Nat
  tile_list : Option (List Nat)
  blank_pos : Option Nat
  deriving DecidableEq, Repr

/-- `GemPuzzleState.__init__` including the `tile_list = None` default path. -/
def GemPuzzleState.init (tile_list : Option (List Nat)) : Except String PyGemPuzzleObj :=
  match tile_list with
  | none => .ok { size := none, tile_list := none, blank_pos := none }
  | some tl =>
    (GemPuzzleState.construct tl).map fun s =>
      { size := some s.size, tile_list := some s.tile_list, blank_pos := some s.blank_pos }

/-- Validity invariant of a constructed state (spec section 3): the tile
list is a permutation of `1..size*size`, the blank sits at `blank_pos`,
and the board is at least `2 × 2`. -/
def GemPuzzleState.Valid (s : GemPuzzleState) : Prop :=
  2 ≤ s.size ∧ s.tile_list.length = s.size ^ 2 ∧
    s.tile_list.Perm (List.range' 1 (s.size ^ 2)) ∧
    s.blank_pos < s.tile_list.length ∧
    s.tile_list[s.blank_pos]? = some (s.size ^ 2)

instance (s : GemPuzzleState) : Decidable s.Valid := by
  unfold GemPuzzleState.Valid
  infer_instance

/-- `GemPuzzleState.__str__` applied to the tile list only; stands in for
Python's `str(self.tile_list)` inside `__hash__`. -/
def stateStr (s : GemPuzzleState) : String := toString s.tile_list

/-- `GemPuzzleState.__hash__`, i.e. `hash(str(self.tile_list))`, for an
arbitrary underlying string-hash function `pyHash`. -/
def stateHash (pyHash : String → Nat) (s : GemPuzzleState) : Nat := pyHash (stateStr s)

/-- `GemPuzzleState.__eq__`: `hash(self) == hash(other) and self.tile_list == other.tile_list`. -/
def stateEq (pyHash : String → Nat) (s other : GemPuzzleState) : Bool :=
  stateHash pyHash s == stateHash pyHash other && s.tile_list == other.tile_list

/-- The move offsets of `get_successors`, in source order. -/
def delta : List (Int × Int) := [(0, 1), (1, 0), (0, -1), (-1, 0)]

/-- One iteration of the `get_successors` loop: shift the blank's
row/column by the offset `d`; inside the board, build the successor by
swapping the blank with the tile at the destination index. -/
def moveBlank (state : GemPuzzleState) : Int × Int → Option GemPuzzleState
  | (dx, dy) =>
    let row : Int := (state.blank_pos : Int) / (state.size : Int) + dx
    let col : Int := (state.blank_pos : Int) % (state.size : Int) + dy
    if 0 ≤ row ∧ row < (state.size : Int) ∧ 0 ≤ col ∧ col < (state.size : Int) then
      let new_bp : Nat := (row * (state.size : Int) + col).toNat
      some { size := state.size
             tile_list :=
               (state.tile_list.set state.blank_pos (state.tile_list.getD new_bp 0)).set
                 new_bp (state.size ^ 2)
             blank_pos := new_bp }
    else
      none

/-- The successor obtained by swapping the blank with the tile at
destination index `j`; the common shape of every state built by
`get_successors`. -/
def succAt (s : GemPuzzleState) (j : Nat) : GemPuzzleState :=
  { size := s.size
    tile_list := (s.tile_list.set s.blank_pos (s.tile_list.getD j 0)).set j (s.size ^ 2)
    blank_pos := j }

/-- `get_successors` from `utils/gem_puzzle.py`: the loop appends one
successor per in-bounds offset, in `delta` order. -/
def get_successors (state : GemPuzzleState) : List GemPuzzleState :=
  delta.filterMap (moveBlank state)

/-- The inversion-counting double loop of `is_solvable`: for each element,
count later elements that are smaller. -/
def countInv : List Nat → Nat
  | [] => 0
  | t :: rest => (rest.filter (fun x => x < t)).length + countInv rest

/-- `is_solvable` from `utils/dataset_creation.py`. -/
def is_solvable (tile_list : List Nat) : Bool :=
  let inversions := countInv (tile_list.filter (fun v => v ≠ tile_list.length))
  let size := isqrt tile_list.length
  if size % 2 ≠ 0 ∧ inversions % 2 = 0 then
    true
  else if size % 2 = 0 then
    let empty_row : Int :=
      (size : Int) - (tile_list.indexOf tile_list.length : Int) / (size : Int)
    decide (empty_row % 2 ≠ 0) == decide (inversions % 2 = 0)
  else
    false

/-- Per-tile contribution to the Manhattan distance between board
positions `pos1` and `pos2` on a board of width `size`. -/
def tileDist (size pos1 pos2 : Nat) : Nat :=
  Nat.dist (pos1 / size) (pos2 / size) + Nat.dist (pos1 % size) (pos2 % size)

/-- The `positions` dictionary comprehension of `manhattan_distance`:
entries `(tile, pos2)` over `enumerate(state2.tile_list)`, skipping the blank. -/
def mdPositionsList (blank_value : Nat) (tiles : List Nat) : List (Nat × Nat) :=
  tiles.enum.filterMap fun p => if p.2 ≠ blank_value then some (p.2, p.1) else none

/-- Lookup in a Python dict represented as its insertion list; a later
binding for the same key overrides an earlier one, so the list is searched
from its reversed form's head. -/
def dictLookup (k : Nat) : List (Nat × Nat) → Option Nat
  | [] => none
  | (a, b) :: rest => if a = k then some b else dictLookup k rest

/-- The summation loop of `manhattan_distance` over `enumerate(state1.tile_list)`;
a failed dictionary lookup is Python's `KeyError`, modelled as `none`. -/
def sumDistances (size blank_value : Nat) (positions : Nat → Option Nat) :
    List (Nat × Nat) → Option Nat
  | [] => some 0
  | (pos1, tile) :: rest =>
    if tile ≠ blank_value then
      match positions tile with
      | none => none
      | some pos2 =>
        match sumDistances size blank_value positions rest with
        | none => none
        | some acc => some (tileDist size pos1 pos2 + acc)
    else
      sumDistances size blank_value positions rest

/-- `manhattan_distance` from `utils/dataset_creation.py`. -/
def manhattan_distance (state1 state2 : GemPuzzleState) : Option Nat :=
  let size := state1.size
  let blank_value := state1.tile_list.length
  let positions := fun tile => dictLookup tile (mdPositionsList blank_value state2.tile_list).reverse
  sumDistances size blank_value positions state1.tile_list.enum

/-- The terminal node returned by an external search algorithm; the
harness reads its accumulated path cost `g`. -/
structure SearchNode where
  g : Int
  deriving DecidableEq, Repr

/-- The statistics dictionary of `massive_test`: three parallel sequences
keyed `len`, `st_size` and `steps`. -/
structure MassiveStats where
  len : List Int
  st_size : List Nat
  steps : List Nat
  deriving DecidableEq, Repr

/-- The call contract of an external search algorithm:
`(path_found, last_state, steps, search_tree_size)`, with any raised
error modelled as `Except.error`. -/
def SearchFun : Type :=
  GemPuzzleState → GemPuzzleState → Except String (Bool × Option SearchNode × Nat × Nat)

/-- The body of the `try` block of `massive_test` for one task: call the
search function, then read `last_state.g` when a path was found (reading
`g` off Python `None` raises) and `0.0` otherwise.  Returns the triple
appended to `len`, `st_size` and `steps`. -/
def tryEvaluate (search : SearchFun) (start_state goal_state : GemPuzzleState) :
    Except String (Int × Nat × Nat) := do
  let (found, last_state, number_of_steps, search_tree_size) ← search start_state goal_state
  let pathLen : Int ←
    if found then
      match last_state with
      | some node => Except.ok node.g
      | none => Except.error "AttributeError: NoneType object has no attribute g"
    else
      Except.ok 0
  Except.ok (pathLen, search_tree_size, number_of_steps)

/-- `massive_test` from `tests/lab_test.py`, over already-parsed task
tile lists.  For each task the start and goal states are constructed
outside the `try` block (a construction error aborts the whole batch);
an error escaping the search invocation is reported and the loop
continues, appending nothing for that task. -/
def massive_test (search : SearchFun) : List (List Nat) → Except String MassiveStats
  | [] => Except.ok { len := [], st_size := [], steps := [] }
  | start_tile_list :: rest => do
    let start_state ← GemPuzzleState.construct start_tile_list
    let _goal_state ← GemPuzzleState.construct (List.range' 1 start_tile_list.length)
    match tryEvaluate search start_state _goal_state with
    | Except.ok (l, ts, st) =>
      (massive_test search rest).map fun m =>
        { len := l :: m.len, st_size := ts :: m.st_size, steps := st :: m.steps }
    | Except.error _ => massive_test search rest

/-- The outcome of one task of `massive_test` in isolation: construct the
two states, then run the guarded search invocation. -/
def taskOutcome (search : SearchFun) (start_tile_list : List Nat) :
    Except String (Int × Nat × Nat) := do
  let start_state ← GemPuzzleState.construct start_tile_list
  let goal_state ← GemPuzzleState.construct (List.range' 1 start_tile_list.length)
  tryEvaluate search start_state goal_state

/-- A sample search algorithm for exercising the harness: raises on one
specific start configuration and succeeds on every other. -/
def sampleSearch : SearchFun := fun s _ =>
  if s.tile_list = [2, 1, 3, 4] then Except.error "boom"
  else Except.ok (true, some { g := 4 }, 10, 20)

/-- A state as seen by the heap model of `get_successors`: the Python
list object held in attribute `tile_list` is a reference `tiles_ref`
into a heap of tile lists, so that `copy.copy` and in-place update are
observable. -/
structure HGemPuzzleState where
  size : Nat
  tiles_ref : Nat
  blank_pos : Nat
  deriving DecidableEq, Repr

/-- One iteration of the `get_successors` loop against an explicit heap:
`copy.copy(state.tile_list)` allocates a fresh cell holding a copy of the
input's tile list, and both element assignments then write to that fresh
cell only. -/
def hMoveBlank (heap : List (List Nat)) (s : HGemPuzzleState) (d : Int × Int) :
    List (List Nat) × Option HGemPuzzleState :=
  let row : Int := (s.blank_pos : Int) / (s.size : Int) + d.1
  let col : Int := (s.blank_pos : Int) % (s.size : Int) + d.2
  if 0 ≤ row ∧ row < (s.size : Int) ∧ 0 ≤ col ∧ col < (s.size : Int) then
    let new_bp : Nat := (row * (s.size : Int) + col).toNat
    let copied := heap.getD s.tiles_ref []
    let copied := copied.set s.blank_pos (copied.getD new_bp 0)
    let copied := copied.set new_bp (s.size ^ 2)
    (heap ++ [copied], some { size := s.size, tiles_ref := heap.length, blank_pos := new_bp })
  else
    (heap, none)

/-- One loop step of the heap-model `get_successors`: run `hMoveBlank`
on the current heap and append any produced successor. -/
def hStep (s : HGemPuzzleState) (acc : List (List Nat) × List HGemPuzzleState)
    (d : Int × Int) : List (List Nat) × List HGemPuzzleState :=
  ((hMoveBlank acc.1 s d).1, acc.2 ++ (hMoveBlank acc.1 s d).2.toList)

/-- `get_successors` in the heap model: fold the four offsets, threading
the heap and appending each produced successor. -/
def hGetSuccessors (heap : List (List Nat)) (s : HGemPuzzleState) :
    List (List Nat) × List HGemPuzzleState :=
  delta.foldl (hStep s) (heap, [])

/-- Row of a linear board index (spec section 4.2). -/
def rowOf (size idx : Nat) : Nat := idx / size

/-- Column of a linear board index (spec section 4.2). -/
def colOf (size idx : Nat) : Nat := idx % size

/-- Two linear board indices name horizontally or vertically adjacent
cells of a `size × size` board. -/
def adjacentPos (size i j : Nat) : Prop :=
  (rowOf size i = rowOf size j ∧ (colOf size i + 1 = colOf size j ∨ colOf size j + 1 = colOf size i)) ∨
    (colOf size i = colOf size j ∧ (rowOf size i + 1 = rowOf size j ∨ rowOf size j + 1 = rowOf size i))

/-- A list is a length-2 descending pair, i.e. witnesses one inversion. -/
def isInvPair : List Nat → Bool
  | [a, b] => decide (b < a)
  | _ => false

/-- Specification-side inversion count: the number of index pairs
`(i, j)` with `i < j` and `tile[j] < tile[i]`, phrased as the number of
order-2 sublists that are descending. -/
def inversionsPairs (l : List Nat) : Nat :=
  ((l.sublistsLen 2).filter isInvPair).length

/-! ### Properties of the floor square root model -/

lemma isqrtGo_le (n : Nat) : ∀ k, isqrtGo n k ≤ k
  | 0 => Nat.le_refl 0
  | k + 1 => by
    unfold isqrtGo
    split
    · exact Nat.le_refl _
    · exact Nat.le_trans (isqrtGo_le n k) (Nat.le_succ k)

lemma isqrtGo_sq_le (n : Nat) : ∀ k, isqrtGo n k * isqrtGo n k ≤ n
  | 0 => Nat.zero_le n
  | k + 1 => by
    unfold isqrtGo
    split
    · assumption
    · exact isqrtGo_sq_le n k

lemma le_isqrtGo (n : Nat) : ∀ k m, m ≤ k → m * m ≤ n → m ≤ isqrtGo n k
  | 0, m, hm, _ => by simpa [isqrtGo] using hm
  | k + 1, m, hm, hsq => by
    unfold isqrtGo
    split
    · exact hm
    · rename_i hcond
      have hmk : m ≤ k := by
        rcases Nat.lt_or_ge m (k + 1) with h | h
        · omega
        · exact absurd (Nat.le_antisymm hm h ▸ hsq) (by simpa using hcond)
      exact le_isqrtGo n k m hmk hsq

lemma isqrt_sq_le (n : Nat) : isqrt n * isqrt n ≤ n := isqrtGo_sq_le n n

lemma le_isqrt {n m : Nat} (h : m * m ≤ n) : m ≤ isqrt n := by
  have hm : m ≤ m * m := by
    rcases Nat.eq_zero_or_pos m with h0 | h0
    · simp [h0]
    · exact Nat.le_mul_of_pos_left m h0
  exact le_isqrtGo n n m (Nat.le_trans hm h) h

lemma isqrt_mul_self (n : Nat) : isqrt (n * n) = n := by
  rcases Nat.eq_zero_or_pos n with h0 | hpos
  · subst h0; rfl
  · refine Nat.le_antisymm ?_ (le_isqrt (Nat.le_refl _))
    by_contra hlt
    have h1 : n + 1 ≤ isqrt (n * n) := by omega
    have h2 : (n + 1) * (n + 1) ≤ isqrt (n * n) * isqrt (n * n) :=
      Nat.mul_le_mul h1 h1
    have h3 := isqrt_sq_le (n * n)
    nlinarith

lemma isqrt_perfect_iff (m : Nat) : m = isqrt m ^ 2 ↔ ∃ k, k * k = m := by
  constructor
  · intro h
    exact ⟨isqrt m, by rw [← Nat.pow_two, ← h]⟩
  · rintro ⟨k, hk⟩
    rw [← hk, isqrt_mul_self, Nat.pow_two]

/-! ### C9, C5, C1 -/

/-- C9: calling the constructor with no tile list (the `None` default)
does not raise; it produces an object whose `size` and `blank_pos` are
both `None` and which has no `tile_list` attribute at all, bypassing
every construction-time validation. -/
theorem c9_default_constructor_skips_validation :
    GemPuzzleState.init none =
      Except.ok { size := none, tile_list := none, blank_pos := none } := rfl

/-- C5: two states are `__eq__`-equal iff their tile sequences are equal
element-wise in order, and `__hash__` is a pure function of the tile
sequence, so equal states hash identically; this holds for every
underlying string-hash function. -/
theorem c5_eq_iff_tiles_and_hash_pure (pyHash : String → Nat) (s t : GemPuzzleState) :
    (stateEq pyHash s t = true ↔ s.tile_list = t.tile_list) ∧
      (s.tile_list = t.tile_list → stateHash pyHash s = stateHash pyHash t) := by
  constructor
  · constructor
    · intro h
      simpa [stateEq, Bool.and_eq_true, beq_iff_eq] using
        (And.right (by simpa [stateEq, Bool.and_eq_true, beq_iff_eq] using h))
    · intro h
      simp [stateEq, stateHash, stateStr, h]
  · intro h
    simp [stateHash, stateStr, h]

theorem c5_witness :
    (stateEq String.length { size := 2, tile_list := [2,1,3,4], blank_pos := 3 }
        { size := 2, tile_list := [2,1,3,4], blank_pos := 3 } = true ↔
      ([2,1,3,4] : List Nat) = [2,1,3,4]) ∧
      (([2,1,3,4] : List Nat) = [2,1,3,4] →
        stateHash String.length { size := 2, tile_list := [2,1,3,4], blank_pos := 3 } =
          stateHash String.length { size := 2, tile_list := [2,1,3,4], blank_pos := 3 }) :=
  c5_eq_iff_tiles_and_hash_pure String.length
    { size := 2, tile_list := [2,1,3,4], blank_pos := 3 }
    { size := 2, tile_list := [2,1,3,4], blank_pos := 3 }

/-- C1 fails as stated: a tile list in which the sentinel blank value
appears more than once is accepted by the constructor, which silently
caches the first occurrence instead of raising. -/
theorem c1_counterexample :
    2 ≤ ([1, 4, 4, 2] : List Nat).count 4 ∧
      GemPuzzleState.construct [1, 4, 4, 2] =
        Except.ok { size := 2, tile_list := [1, 4, 4, 2], blank_pos := 1 } :=
  ⟨by decide, rfl⟩

/-- C1 (amended): construction succeeds iff the length is a perfect
square and the sentinel blank value `size*size` occurs in the list (a
duplicated sentinel is accepted); on success `blank_pos` is the first
index of the sentinel value. -/
lemma construct_error_of_len {tl : List Nat} (h1 : tl.length ≠ isqrt tl.length ^ 2) :
    GemPuzzleState.construct tl =
      Except.error "Tile list size should be a perfect square." := by
  simp only [GemPuzzleState.construct]
  rw [if_pos h1]

lemma construct_error_of_blank {tl : List Nat} (h1 : tl.length = isqrt tl.length ^ 2)
    (h2 : isqrt tl.length ^ 2 ∉ tl) :
    GemPuzzleState.construct tl =
      Except.error "State should contain max value indicating the blank tile's position." := by
  simp only [GemPuzzleState.construct]
  rw [if_neg (not_not_intro h1), if_neg h2, if_pos rfl]

lemma construct_ok {tl : List Nat} (h1 : tl.length = isqrt tl.length ^ 2)
    (h2 : isqrt tl.length ^ 2 ∈ tl) :
    GemPuzzleState.construct tl =
      Except.ok { size := isqrt tl.length, tile_list := tl,
                  blank_pos := tl.indexOf (isqrt tl.length ^ 2) } := by
  have hne : ((tl.indexOf (isqrt tl.length ^ 2) : Nat) : Int) ≠ -1 := by omega
  simp only [GemPuzzleState.construct]
  rw [if_neg (not_not_intro h1), if_pos h2, if_neg hne]
  simp

theorem c1_construct_checks (tl : List Nat) :
    ((∃ s, GemPuzzleState.construct tl = Except.ok s) ↔
      ((∃ k, k * k = tl.length) ∧ (isqrt tl.length) ^ 2 ∈ tl)) ∧
      ∀ s, GemPuzzleState.construct tl = Except.ok s →
        s.size = isqrt tl.length ∧ s.tile_list = tl ∧
          s.blank_pos = tl.indexOf ((isqrt tl.length) ^ 2) := by
  constructor
  · constructor
    · rintro ⟨s, hs⟩
      by_cases h1 : tl.length = isqrt tl.length ^ 2
      · by_cases h2 : isqrt tl.length ^ 2 ∈ tl
        · exact ⟨(isqrt_perfect_iff tl.length).mp h1, h2⟩
        · rw [construct_error_of_blank h1 h2] at hs
          exact absurd hs (by simp)
      · rw [construct_error_of_len h1] at hs
        exact absurd hs (by simp)
    · rintro ⟨⟨k, hk⟩, hmem⟩
      have h1 : tl.length = isqrt tl.length ^ 2 := (isqrt_perfect_iff tl.length).mpr ⟨k, hk⟩
      exact ⟨_, construct_ok h1 hmem⟩
  · intro s hs
    by_cases h1 : tl.length = isqrt tl.length ^ 2
    · by_cases h2 : isqrt tl.length ^ 2 ∈ tl
      · rw [construct_ok h1 h2] at hs
        cases hs
        simp
      · rw [construct_error_of_blank h1 h2] at hs
        exact absurd hs (by simp)
    · rw [construct_error_of_len h1] at hs
      exact absurd hs (by simp)

theorem c1_witness : ∃ s, GemPuzzleState.construct [2, 1, 3, 4] = Except.ok s :=
  (c1_construct_checks [2, 1, 3, 4]).1.mpr ⟨⟨2, rfl⟩, by decide⟩

/-! ### C2, C6: the solvability checker -/

lemma countInv_eq_inversionsPairs : ∀ l : List Nat, countInv l = inversionsPairs l
  | [] => by simp [countInv, inversionsPairs]
  | a :: l => by
    have ih := countInv_eq_inversionsPairs l
    have hsub : (a :: l).sublistsLen 2 = l.sublistsLen 2 ++ (l.sublistsLen 1).map (a :: ·) :=
      List.sublistsLen_succ_cons 1 a l
    have hone : l.sublistsLen 1 = l.reverse.map ([·]) := List.sublistsLen_one l
    have hmm : ((l.reverse.map ([·])).map (a :: ·)) = l.reverse.map (fun b => [a, b]) := by
      rw [List.map_map]
      rfl
    have hfil : (l.reverse.map (fun b => [a, b])).filter isInvPair =
        (l.reverse.filter (fun b => decide (b < a))).map (fun b => [a, b]) := by
      rw [List.filter_map]
      rfl
    calc countInv (a :: l)
        = (l.filter (fun x => x < a)).length + countInv l := rfl
      _ = ((a :: l).sublistsLen 2 |>.filter isInvPair).length := by
          rw [hsub, List.filter_append, List.length_append, hone, hmm, hfil]
          simp [ih, inversionsPairs, Nat.add_comm]
      _ = inversionsPairs (a :: l) := rfl

lemma perm_range'_nodup {l : List Nat} {n : Nat} (h : l.Perm (List.range' 1 n)) : l.Nodup :=
  h.nodup_iff.mpr (List.nodup_range' 1 n)

lemma indexOf_of_getElem? {l : List Nat} (hnd : l.Nodup) {i : Nat} {x : Nat}
    (h : l[i]? = some x) : l.indexOf x = i := by
  have hi : i < l.length := by
    by_contra hlt
    rw [List.getElem?_eq_none (by omega)] at h
    exact absurd h (by simp)
  have hx : l[i] = x := by
    rw [List.getElem?_eq_getElem hi] at h
    exact Option.some_injective _ h
  rw [← hx]
  exact List.indexOf_getElem hnd i hi

/-- C2: on a permutation of `1..n*n`, the checker returns true per the
exact parity formula of the spec: for odd `n` iff the inversion count of
the blank-free sequence is even; for even `n` iff the parity comparison
`(size - blank_index // size is odd) == (inversions is even)` holds. -/
theorem c2_solvability_formula (n : Nat) (tile_list : List Nat) (bi : Nat)
    (hlen : tile_list.length = n * n)
    (hperm : tile_list.Perm (List.range' 1 (n * n)))
    (hbi : tile_list[bi]? = some (n * n)) :
    (is_solvable tile_list = true ↔
      (if n % 2 = 1 then
        inversionsPairs (tile_list.filter (fun v => v ≠ n * n)) % 2 = 0
      else
        ((n - bi / n) % 2 = 1 ↔
          inversionsPairs (tile_list.filter (fun v => v ≠ n * n)) % 2 = 0))) := by
  have hnd : tile_list.Nodup := perm_range'_nodup hperm
  have hidx : tile_list.indexOf (n * n) = bi := indexOf_of_getElem? hnd hbi
  have hbilt : bi < n * n := by
    by_contra hlt
    rw [List.getElem?_eq_none (by omega)] at hbi
    exact absurd hbi (by simp)
  have hn : 0 < n := by
    rcases Nat.eq_zero_or_pos n with h0 | h0
    · subst h0; omega
    · exact h0
  have hsz : isqrt tile_list.length = n := by rw [hlen, isqrt_mul_self]
  have hfl : tile_list.filter (fun v => v ≠ tile_list.length) =
      tile_list.filter (fun v => v ≠ n * n) := by rw [hlen]
  have hinv : countInv (tile_list.filter (fun v => v ≠ tile_list.length)) =
      inversionsPairs (tile_list.filter (fun v => v ≠ n * n)) := by
    rw [hfl, countInv_eq_inversionsPairs]
  have hdiv : ((tile_list.indexOf tile_list.length : Nat) : Int) / ((n : Nat) : Int) =
      ((bi / n : Nat) : Int) := by
    rw [hlen, hidx]
    exact_mod_cast (Int.ofNat_ediv bi n).symm
  set inv := inversionsPairs (tile_list.filter (fun v => v ≠ n * n)) with hinvdef
  rcases Nat.even_or_odd n with he | ho
  · have h2 : n % 2 = 0 := Nat.even_iff.mp he
    rw [is_solvable]
    simp only [hsz, hinv, hdiv]
    rw [if_neg (show ¬ (n % 2 ≠ 0 ∧ inv % 2 = 0) by simp [h2])]
    rw [if_pos h2]
    rw [if_neg (by omega : ¬ n % 2 = 1)]
    have hrow2 : ((n : Nat) : Int) - ((bi / n : Nat) : Int) = ((n - bi / n : Nat) : Int) := by
      have hlt : bi / n < n := Nat.div_lt_of_lt_mul hbilt
      push_cast
      omega
    rw [hrow2, beq_iff_eq, decide_eq_decide]
    have hpar : ((((n - bi / n : Nat) : Int) % 2 ≠ 0) ↔ ((n - bi / n) % 2 = 1)) := by omega
    rw [hpar]
  · have h2 : n % 2 = 1 := Nat.odd_iff.mp ho
    rw [is_solvable]
    simp only [hsz, hinv]
    rw [if_pos h2]
    by_cases hinv2 : inv % 2 = 0
    · rw [if_pos (show n % 2 ≠ 0 ∧ inv % 2 = 0 from ⟨by omega, hinv2⟩)]
      simp [hinv2]
    · rw [if_neg (fun hc => hinv2 hc.2), if_neg (by omega : ¬ n % 2 = 0)]
      simp [hinv2]

theorem c2_witness :
    (is_solvable [1, 2, 3, 4] = true ↔
      (if 2 % 2 = 1 then
        inversionsPairs (([1, 2, 3, 4] : List Nat).filter (fun v => v ≠ 2 * 2)) % 2 = 0
      else
        ((2 - 3 / 2) % 2 = 1 ↔
          inversionsPairs (([1, 2, 3, 4] : List Nat).filter (fun v => v ≠ 2 * 2)) % 2 = 0))) :=
  c2_solvability_formula 2 [1, 2, 3, 4] 3 rfl (by decide) (by decide)

lemma countInv_of_sorted : ∀ l : List Nat, l.Pairwise (· < ·) → countInv l = 0
  | [], _ => rfl
  | a :: l, h => by
    rw [List.pairwise_cons] at h
    have hfil : l.filter (fun x => x < a) = [] := by
      rw [List.filter_eq_nil]
      intro x hx
      have := h.1 x hx
      simp
      omega
    simp [countInv, hfil, countInv_of_sorted l h.2]

lemma range'_filter_last (m : Nat) (hm : 1 ≤ m) :
    (List.range' 1 m).filter (fun v => v ≠ m) = List.range' 1 (m - 1) := by
  have hsplit : List.range' 1 m = List.range' 1 (m - 1) ++ [m] := by
    have h0 : List.range' 1 (m - 1 + 1) = List.range' 1 (m - 1) ++ [1 + 1 * (m - 1)] :=
      List.range'_concat 1 (m - 1)
    rw [show m - 1 + 1 = m by omega] at h0
    rw [h0]
    congr 2
    omega
  rw [hsplit, List.filter_append]
  have h1 : (List.range' 1 (m - 1)).filter (fun v => v ≠ m) = List.range' 1 (m - 1) := by
    rw [List.filter_eq_self]
    intro a ha
    have := List.mem_range'_1.mp ha
    simp
    omega
  have h2 : ([m] : List Nat).filter (fun v => v ≠ m) = [] := by simp
  rw [h1, h2, List.append_nil]

lemma range'_indexOf_last (m : Nat) (hm : 1 ≤ m) :
    (List.range' 1 m).indexOf m = m - 1 := by
  have hsplit : List.range' 1 m = List.range' 1 (m - 1) ++ [m] := by
    have h0 : List.range' 1 (m - 1 + 1) = List.range' 1 (m - 1) ++ [1 + 1 * (m - 1)] :=
      List.range'_concat 1 (m - 1)
    rw [show m - 1 + 1 = m by omega] at h0
    rw [h0]
    congr 2
    omega
  have hnot : m ∉ List.range' 1 (m - 1) := by
    intro hmem
    have := List.mem_range'_1.mp hmem
    omega
  rw [hsplit, List.indexOf_append_of_not_mem hnot]
  simp [List.indexOf_cons_self]

/-- C6: the solvability checker accepts the canonical goal ordering
`1, 2, ..., n*n` for every board size `n ≥ 2`. -/
theorem c6_goal_is_solvable (n : Nat) (hn : 2 ≤ n) :
    is_solvable (List.range' 1 (n * n)) = true := by
  have hn1 : 1 ≤ n * n := by nlinarith
  have hlen : (List.range' 1 (n * n)).length = n * n := by simp
  have hsz : isqrt (List.range' 1 (n * n)).length = n := by rw [hlen, isqrt_mul_self]
  have hfil : (List.range' 1 (n * n)).filter (fun v => v ≠ (List.range' 1 (n * n)).length) =
      List.range' 1 (n * n - 1) := by
    rw [hlen]
    exact range'_filter_last (n * n) hn1
  have hsorted : (List.range' 1 (n * n - 1)).Pairwise (· < ·) := by
    simp [List.pairwise_lt_range']
  have hinv : countInv ((List.range' 1 (n * n)).filter
      (fun v => v ≠ (List.range' 1 (n * n)).length)) = 0 := by
    rw [hfil]
    exact countInv_of_sorted _ hsorted
  have hidx : (List.range' 1 (n * n)).indexOf (List.range' 1 (n * n)).length = n * n - 1 := by
    rw [hlen]
    exact range'_indexOf_last (n * n) hn1
  rw [is_solvable]
  simp only [hsz, hinv, hidx]
  rcases Nat.even_or_odd n with he | ho
  · have h2 : n % 2 = 0 := Nat.even_iff.mp he
    rw [if_neg (by simp [h2]), if_pos h2]
    have hdivlast : ((n * n - 1 : Nat) : Int) / ((n : Nat) : Int) = ((n - 1 : Nat) : Int) := by
      rw [show ((n * n - 1 : Nat) : Int) = (((n - 1) + n * (n - 1) : Nat) : Int) by
            congr 1
            cases n with
            | zero => omega
            | succ m =>
              simp only [Nat.add_sub_cancel]
              have hring : (m + 1) * (m + 1) = m + (m + 1) * m + 1 := by ring
              omega]
      rw [← Int.ofNat_ediv]
      congr 1
      rw [Nat.add_mul_div_left _ _ (by omega : 0 < n), Nat.div_eq_of_lt (by omega)]
      omega
    rw [hdivlast]
    have hone : ((n : Nat) : Int) - ((n - 1 : Nat) : Int) = 1 := by
      omega
    rw [hone]
    decide
  · have h2 : n % 2 = 1 := Nat.odd_iff.mp ho
    rw [if_pos (show n % 2 ≠ 0 ∧ True from ⟨by omega, trivial⟩)]

theorem c6_witness : is_solvable (List.range' 1 (2 * 2)) = true :=
  c6_goal_is_solvable 2 (by decide)

/-! ### C4: the batch harness isolates per-task search errors -/

/-- C4: when every task's two state constructions succeed, the batch
never aborts: it returns statistics in which each sequence has exactly
one element per task whose search invocation succeeded, in task order,
and a task whose search invocation raised contributes no element (not a
zero) to any of the three sequences. -/
lemma exceptOkBind {e a b : Type} (x : a) (f : a → Except e b) :
    (Except.ok x >>= f : Except e b) = f x := rfl

lemma exceptMapOk {e a b : Type} (f : a → b) (x : a) :
    Except.map f (Except.ok x : Except e a) = Except.ok (f x) := rfl

theorem c4_harness_error_isolation (search : SearchFun) (tasks : List (List Nat))
    (h : ∀ tl ∈ tasks, (∃ s, GemPuzzleState.construct tl = Except.ok s) ∧
      (∃ g, GemPuzzleState.construct (List.range' 1 tl.length) = Except.ok g)) :
    massive_test search tasks = Except.ok
      { len := tasks.filterMap fun tl => ((taskOutcome search tl).toOption).map (·.1)
        st_size := tasks.filterMap fun tl => ((taskOutcome search tl).toOption).map (·.2.1)
        steps := tasks.filterMap fun tl => ((taskOutcome search tl).toOption).map (·.2.2) } := by
  induction tasks with
  | nil => rfl
  | cons tl rest ih =>
    obtain ⟨⟨s, hs⟩, ⟨g, hg⟩⟩ := h tl (List.mem_cons_self tl rest)
    have hrest := ih fun tl' htl' => h tl' (List.mem_cons_of_mem tl htl')
    have hout : taskOutcome search tl = tryEvaluate search s g := by
      rw [taskOutcome, hs, hg]
      rfl
    cases htry : tryEvaluate search s g with
    | ok v =>
      rcases v with ⟨l, ts, st⟩
      simp [massive_test, hs, hg, htry, hrest, hout, Except.toOption, List.filterMap_cons,
        exceptOkBind, exceptMapOk]
    | error e =>
      simp [massive_test, hs, hg, htry, hrest, hout, Except.toOption, List.filterMap_cons,
        exceptOkBind]

theorem c4_witness :
    massive_test sampleSearch [[2, 1, 3, 4], [1, 2, 3, 4]] =
      Except.ok { len := [4], st_size := [20], steps := [10] } := by
  have h := c4_harness_error_isolation sampleSearch [[2, 1, 3, 4], [1, 2, 3, 4]] (by
    intro tl htl
    simp only [List.mem_cons, List.not_mem_nil, or_false] at htl
    rcases htl with rfl | rfl
    · exact ⟨⟨_, rfl⟩, ⟨_, rfl⟩⟩
    · exact ⟨⟨_, rfl⟩, ⟨_, rfl⟩⟩)
  rw [h]
  rfl

/-! ### C8: successor generation never mutates the input state -/

lemma hMoveBlank_extends (heap : List (List Nat)) (s : HGemPuzzleState) (d : Int × Int) :
    heap <+: (hMoveBlank heap s d).1 ∧
      ∀ t ∈ (hMoveBlank heap s d).2.toList, t.tiles_ref = heap.length := by
  simp only [hMoveBlank]
  split
  · refine ⟨⟨[_], rfl⟩, ?_⟩
    intro t ht
    simp only [Option.toList_some, List.mem_singleton] at ht
    subst ht
    rfl
  · exact ⟨List.prefix_refl heap, by simp⟩

lemma hFold_extends (s : HGemPuzzleState) :
    ∀ (ds : List (Int × Int)) (heap : List (List Nat)) (acc : List HGemPuzzleState),
      heap <+: (ds.foldl (hStep s) (heap, acc)).1 ∧
        ∀ t ∈ (ds.foldl (hStep s) (heap, acc)).2, t ∈ acc ∨ heap.length ≤ t.tiles_ref
  | [], heap, acc => ⟨List.prefix_refl heap, fun _ ht => Or.inl ht⟩
  | d :: ds, heap, acc => by
    have h1 := hMoveBlank_extends heap s d
    have ih := hFold_extends s ds (hMoveBlank heap s d).1 (acc ++ (hMoveBlank heap s d).2.toList)
    rw [List.foldl_cons]
    have hstep : hStep s (heap, acc) d =
        ((hMoveBlank heap s d).1, acc ++ (hMoveBlank heap s d).2.toList) := rfl
    rw [hstep]
    refine ⟨h1.1.trans ih.1, ?_⟩
    intro t ht
    rcases ih.2 t ht with hmem | hge
    · rcases List.mem_append.mp hmem with ha | hb
      · exact Or.inl ha
      · exact Or.inr (le_of_eq (h1.2 t hb).symm)
    · exact Or.inr (Nat.le_trans h1.1.length_le hge)

/-- C8: running the successor generator leaves the input state intact —
the heap cell holding its tile list is unchanged by the call (and the
code never writes any attribute of the input object) — and every
returned successor holds a freshly allocated tile-list cell, distinct
from the input's. -/
theorem c8_no_input_mutation (heap : List (List Nat)) (s : HGemPuzzleState)
    (h : s.tiles_ref < heap.length) :
    ((hGetSuccessors heap s).1)[s.tiles_ref]? = heap[s.tiles_ref]? ∧
      ∀ t ∈ (hGetSuccessors heap s).2,
        heap.length ≤ t.tiles_ref ∧ t.tiles_ref ≠ s.tiles_ref := by
  have hext := hFold_extends s delta heap []
  constructor
  · obtain ⟨l2, hl2⟩ := hext.1
    rw [hGetSuccessors, ← hl2]
    rw [List.getElem?_append, if_pos h]
  · intro t ht
    rcases hext.2 t ht with h0 | hge
    · exact absurd h0 (List.not_mem_nil t)
    · exact ⟨hge, by omega⟩

theorem c8_witness :
    (((hGetSuccessors [[1, 2, 3, 4]] { size := 2, tiles_ref := 0, blank_pos := 3 }).1)[0]? =
        ([[1, 2, 3, 4]] : List (List Nat))[0]? ∧
      ∀ t ∈ (hGetSuccessors [[1, 2, 3, 4]] { size := 2, tiles_ref := 0, blank_pos := 3 }).2,
        ([[1, 2, 3, 4]] : List (List Nat)).length ≤ t.tiles_ref ∧ t.tiles_ref ≠ 0) :=
  c8_no_input_mutation [[1, 2, 3, 4]] { size := 2, tiles_ref := 0, blank_pos := 3 } (by decide)

/-! ### C3, C10: successor generation -/

lemma cast_div (bp n : Nat) : ((bp / n : Nat) : Int) = (bp : Int) / (n : Int) := by
  exact_mod_cast Int.ofNat_ediv bp n

lemma cast_mod (bp n : Nat) : ((bp % n : Nat) : Int) = (bp : Int) % (n : Int) := by
  push_cast
  ring

lemma blank_div_lt (s : GemPuzzleState) (hbp : s.blank_pos < s.size ^ 2) :
    s.blank_pos / s.size < s.size := by
  apply Nat.div_lt_of_lt_mul
  rw [← Nat.pow_two]
  exact hbp

lemma moveBlank_right (s : GemPuzzleState) (hn : 0 < s.size) (hbp : s.blank_pos < s.size ^ 2) :
    moveBlank s (0, 1) =
      if s.blank_pos % s.size + 1 < s.size then some (succAt s (s.blank_pos + 1)) else none := by
  have hr : s.blank_pos / s.size < s.size := blank_div_lt s hbp
  have hc : s.blank_pos % s.size < s.size := Nat.mod_lt _ hn
  have hdmz : ((s.blank_pos / s.size : Nat) : Int) * ((s.size : Nat) : Int) +
      ((s.blank_pos % s.size : Nat) : Int) = ((s.blank_pos : Nat) : Int) := by
    exact_mod_cast Nat.div_add_mod' s.blank_pos s.size
  have hdivnn : 0 ≤ (s.blank_pos : Int) / (s.size : Int) :=
    Int.ediv_nonneg (by omega) (by omega)
  have hmodnn : 0 ≤ (s.blank_pos : Int) % (s.size : Int) :=
    Int.emod_nonneg _ (by omega)
  simp only [moveBlank]
  by_cases hcc : s.blank_pos % s.size + 1 < s.size
  · rw [if_pos (by omega), if_pos hcc]
    have hnb : (((s.blank_pos : Int) / (s.size : Int) + 0) * (s.size : Int) +
        ((s.blank_pos : Int) % (s.size : Int) + 1)).toNat = (s.blank_pos + 1) := by
      simp only [← cast_div, ← cast_mod]
      simp only [add_zero]
      omega
    rw [hnb]
    rfl
  · rw [if_neg (by omega), if_neg hcc]

lemma moveBlank_down (s : GemPuzzleState) (hn : 0 < s.size) (hbp : s.blank_pos < s.size ^ 2) :
    moveBlank s (1, 0) =
      if s.blank_pos / s.size + 1 < s.size then some (succAt s (s.blank_pos + s.size)) else none := by
  have hr : s.blank_pos / s.size < s.size := blank_div_lt s hbp
  have hc : s.blank_pos % s.size < s.size := Nat.mod_lt _ hn
  have hdmz : ((s.blank_pos / s.size : Nat) : Int) * ((s.size : Nat) : Int) +
      ((s.blank_pos % s.size : Nat) : Int) = ((s.blank_pos : Nat) : Int) := by
    exact_mod_cast Nat.div_add_mod' s.blank_pos s.size
  have hdivnn : 0 ≤ (s.blank_pos : Int) / (s.size : Int) :=
    Int.ediv_nonneg (by omega) (by omega)
  have hmodnn : 0 ≤ (s.blank_pos : Int) % (s.size : Int) :=
    Int.emod_nonneg _ (by omega)
  simp only [moveBlank]
  by_cases hcc : s.blank_pos / s.size + 1 < s.size
  · rw [if_pos (by omega), if_pos hcc]
    have hnb : (((s.blank_pos : Int) / (s.size : Int) + 1) * (s.size : Int) +
        ((s.blank_pos : Int) % (s.size : Int) + 0)).toNat = (s.blank_pos + s.size) := by
      simp only [← cast_div, ← cast_mod]
      simp only [add_zero]
      have hexp : (((s.blank_pos / s.size : Nat) : Int) + 1) * (s.size : Int) =
          ((s.blank_pos / s.size : Nat) : Int) * (s.size : Int) + (s.size : Int) := by ring
      rw [hexp]
      omega
    rw [hnb]
    rfl
  · rw [if_neg (by omega), if_neg hcc]

lemma moveBlank_left (s : GemPuzzleState) (hn : 0 < s.size) (hbp : s.blank_pos < s.size ^ 2) :
    moveBlank s (0, -1) =
      if 1 ≤ s.blank_pos % s.size then some (succAt s (s.blank_pos - 1)) else none := by
  have hr : s.blank_pos / s.size < s.size := blank_div_lt s hbp
  have hc : s.blank_pos % s.size < s.size := Nat.mod_lt _ hn
  have hdmz : ((s.blank_pos / s.size : Nat) : Int) * ((s.size : Nat) : Int) +
      ((s.blank_pos % s.size : Nat) : Int) = ((s.blank_pos : Nat) : Int) := by
    exact_mod_cast Nat.div_add_mod' s.blank_pos s.size
  have hdivnn : 0 ≤ (s.blank_pos : Int) / (s.size : Int) :=
    Int.ediv_nonneg (by omega) (by omega)
  have hmodnn : 0 ≤ (s.blank_pos : Int) % (s.size : Int) :=
    Int.emod_nonneg _ (by omega)
  simp only [moveBlank]
  by_cases hcc : 1 ≤ s.blank_pos % s.size
  · rw [if_pos (by omega), if_pos hcc]
    have hnb : (((s.blank_pos : Int) / (s.size : Int) + 0) * (s.size : Int) +
        ((s.blank_pos : Int) % (s.size : Int) + -1)).toNat = (s.blank_pos - 1) := by
      simp only [← cast_div, ← cast_mod]
      simp only [add_zero]
      omega
    rw [hnb]
    rfl
  · rw [if_neg (by omega), if_neg hcc]

lemma moveBlank_up (s : GemPuzzleState) (hn : 0 < s.size) (hbp : s.blank_pos < s.size ^ 2) :
    moveBlank s (-1, 0) =
      if 1 ≤ s.blank_pos / s.size then some (succAt s (s.blank_pos - s.size)) else none := by
  have hr : s.blank_pos / s.size < s.size := blank_div_lt s hbp
  have hc : s.blank_pos % s.size < s.size := Nat.mod_lt _ hn
  have hdmz : ((s.blank_pos / s.size : Nat) : Int) * ((s.size : Nat) : Int) +
      ((s.blank_pos % s.size : Nat) : Int) = ((s.blank_pos : Nat) : Int) := by
    exact_mod_cast Nat.div_add_mod' s.blank_pos s.size
  have hdivnn : 0 ≤ (s.blank_pos : Int) / (s.size : Int) :=
    Int.ediv_nonneg (by omega) (by omega)
  have hmodnn : 0 ≤ (s.blank_pos : Int) % (s.size : Int) :=
    Int.emod_nonneg _ (by omega)
  simp only [moveBlank]
  by_cases hcc : 1 ≤ s.blank_pos / s.size
  · rw [if_pos (by omega), if_pos hcc]
    have hnb : (((s.blank_pos : Int) / (s.size : Int) + -1) * (s.size : Int) +
        ((s.blank_pos : Int) % (s.size : Int) + 0)).toNat = (s.blank_pos - s.size) := by
      simp only [← cast_div, ← cast_mod]
      simp only [add_zero]
      have hexp : (((s.blank_pos / s.size : Nat) : Int) + -1) * (s.size : Int) =
          ((s.blank_pos / s.size : Nat) : Int) * (s.size : Int) - (s.size : Int) := by ring
      rw [hexp]
      omega
    rw [hnb]
    rfl
  · rw [if_neg (by omega), if_neg hcc]

lemma get_successors_eq (s : GemPuzzleState) (hn : 0 < s.size)
    (hbp : s.blank_pos < s.size ^ 2) :
    get_successors s =
      (if s.blank_pos % s.size + 1 < s.size then [succAt s (s.blank_pos + 1)] else []) ++
        ((if s.blank_pos / s.size + 1 < s.size then [succAt s (s.blank_pos + s.size)] else []) ++
          ((if 1 ≤ s.blank_pos % s.size then [succAt s (s.blank_pos - 1)] else []) ++
            (if 1 ≤ s.blank_pos / s.size then [succAt s (s.blank_pos - s.size)] else []))) := by
  rw [get_successors, delta]
  rw [List.filterMap_cons, List.filterMap_cons, List.filterMap_cons, List.filterMap_cons,
    List.filterMap_nil]
  rw [moveBlank_right s hn hbp, moveBlank_down s hn hbp, moveBlank_left s hn hbp,
    moveBlank_up s hn hbp]
  by_cases h1 : s.blank_pos % s.size + 1 < s.size <;>
    by_cases h2 : s.blank_pos / s.size + 1 < s.size <;>
      by_cases h3 : 1 ≤ s.blank_pos % s.size <;>
        by_cases h4 : 1 ≤ s.blank_pos / s.size <;>
          simp [h1, h2, h3, h4]

lemma get_successors_length (s : GemPuzzleState) (hn : 0 < s.size)
    (hbp : s.blank_pos < s.size ^ 2) :
    (get_successors s).length =
      (if s.blank_pos % s.size + 1 < s.size then 1 else 0) +
        ((if s.blank_pos / s.size + 1 < s.size then 1 else 0) +
          ((if 1 ≤ s.blank_pos % s.size then 1 else 0) +
            (if 1 ≤ s.blank_pos / s.size then 1 else 0))) := by
  rw [get_successors_eq s hn hbp]
  by_cases h1 : s.blank_pos % s.size + 1 < s.size <;>
    by_cases h2 : s.blank_pos / s.size + 1 < s.size <;>
      by_cases h3 : 1 ≤ s.blank_pos % s.size <;>
        by_cases h4 : 1 ≤ s.blank_pos / s.size <;>
          simp [h1, h2, h3, h4]

lemma div_mod_decomp (n a b : Nat) (hn : 0 < n) (hb : b < n) :
    (n * a + b) / n = a ∧ (n * a + b) % n = b := by
  constructor
  · rw [Nat.mul_add_div hn, Nat.div_eq_of_lt hb, Nat.add_zero]
  · rw [Nat.mul_add_mod, Nat.mod_eq_of_lt hb]

lemma linIdx_lt (n a b : Nat) (ha : a < n) (hb : b < n) : n * a + b < n ^ 2 := by
  have h1 : n * a + b < n * a + n := by omega
  have h2 : n * a + n = n * (a + 1) := by ring
  have h3 : n * (a + 1) ≤ n * n := Nat.mul_le_mul_left n ha
  rw [Nat.pow_two]
  omega

lemma succAt_spec (s : GemPuzzleState) (hv : s.Valid) (j : Nat)
    (hj : j < s.size ^ 2) (hne : j ≠ s.blank_pos) :
    (succAt s j).size = s.size ∧ (succAt s j).blank_pos = j ∧
      (succAt s j).tile_list.length = s.tile_list.length ∧
      (succAt s j).tile_list[s.blank_pos]? = s.tile_list[j]? ∧
      (succAt s j).tile_list[j]? = s.tile_list[s.blank_pos]? ∧
      (∀ k, k ≠ s.blank_pos → k ≠ j → (succAt s j).tile_list[k]? = s.tile_list[k]?) ∧
      (succAt s j).tile_list ≠ s.tile_list := by
  obtain ⟨hsz, hlen, hperm, hbp, hblank⟩ := hv
  have hjlen : j < s.tile_list.length := by omega
  have hnd : s.tile_list.Nodup := perm_range'_nodup hperm
  have hgetD : s.tile_list.getD j 0 = s.tile_list[j] := by
    rw [List.getD_eq_getElem?_getD, List.getElem?_eq_getElem hjlen]
    rfl
  refine ⟨rfl, rfl, ?_, ?_, ?_, ?_, ?_⟩
  · simp [succAt, List.length_set]
  · show ((s.tile_list.set s.blank_pos (s.tile_list.getD j 0)).set j
        (s.size ^ 2))[s.blank_pos]? = s.tile_list[j]?
    rw [List.getElem?_set_ne hne]
    rw [List.getElem?_set_self', hgetD]
    rw [List.getElem?_eq_getElem hbp, List.getElem?_eq_getElem hjlen]
    rfl
  · show ((s.tile_list.set s.blank_pos (s.tile_list.getD j 0)).set j
        (s.size ^ 2))[j]? = s.tile_list[s.blank_pos]?
    rw [List.getElem?_set_self', hblank]
    rw [List.getElem?_eq_getElem (by simpa [List.length_set] using hjlen)]
    simp
  · intro k hk1 hk2
    show ((s.tile_list.set s.blank_pos (s.tile_list.getD j 0)).set j (s.size ^ 2))[k]? =
      s.tile_list[k]?
    rw [List.getElem?_set_ne (fun h => hk2 h.symm), List.getElem?_set_ne (fun h => hk1 h.symm)]
  · intro heq
    have hj2 : (succAt s j).tile_list[j]? = some (s.size ^ 2) := by
      show ((s.tile_list.set s.blank_pos (s.tile_list.getD j 0)).set j (s.size ^ 2))[j]? = _
      rw [List.getElem?_set_self']
      rw [List.getElem?_eq_getElem (by simpa [List.length_set] using hjlen)]
      rfl
    rw [heq] at hj2
    have hij : s.tile_list.indexOf (s.size ^ 2) = j := indexOf_of_getElem? hnd hj2
    have hib : s.tile_list.indexOf (s.size ^ 2) = s.blank_pos := indexOf_of_getElem? hnd hblank
    exact hne (hij ▸ hib ▸ rfl)

lemma adj_right (n bp : Nat) (hn : 0 < n) (hbp : bp < n ^ 2) (hcc : bp % n + 1 < n) :
    bp + 1 < n ^ 2 ∧ bp + 1 ≠ bp ∧ adjacentPos n bp (bp + 1) := by
  have hd := Nat.div_add_mod bp n
  have hq := div_mod_decomp n (bp / n) (bp % n + 1) hn hcc
  have heq : n * (bp / n) + (bp % n + 1) = bp + 1 := by omega
  rw [heq] at hq
  have hlt := linIdx_lt n (bp / n) (bp % n + 1)
    (by apply Nat.div_lt_of_lt_mul; rw [← Nat.pow_two]; exact hbp) hcc
  refine ⟨by omega, by omega, Or.inl ⟨?_, Or.inl ?_⟩⟩
  · show bp / n = (bp + 1) / n
    rw [hq.1]
  · show bp % n + 1 = (bp + 1) % n
    rw [hq.2]

lemma adj_down (n bp : Nat) (hn : 0 < n) (hbp : bp < n ^ 2) (hcc : bp / n + 1 < n) :
    bp + n < n ^ 2 ∧ bp + n ≠ bp ∧ adjacentPos n bp (bp + n) := by
  have hd := Nat.div_add_mod bp n
  have hc : bp % n < n := Nat.mod_lt _ hn
  have hq := div_mod_decomp n (bp / n + 1) (bp % n) hn hc
  have hmul : n * (bp / n + 1) = n * (bp / n) + n := by ring
  have heq : n * (bp / n + 1) + bp % n = bp + n := by omega
  rw [heq] at hq
  have hlt := linIdx_lt n (bp / n + 1) (bp % n) hcc hc
  refine ⟨by omega, by omega, Or.inr ⟨?_, Or.inl ?_⟩⟩
  · show bp % n = (bp + n) % n
    rw [hq.2]
  · show bp / n + 1 = (bp + n) / n
    rw [hq.1]

lemma adj_left (n bp : Nat) (hn : 0 < n) (hbp : bp < n ^ 2) (hcc : 1 ≤ bp % n) :
    bp - 1 < n ^  2 ∧ bp - 1 ≠ bp ∧ adjacentPos n bp (bp - 1) := by
  have hd := Nat.div_add_mod bp n
  have hc : bp % n < n := Nat.mod_lt _ hn
  have hq := div_mod_decomp n (bp / n) (bp % n - 1) hn (by omega)
  have heq : n * (bp / n) + (bp % n - 1) = bp - 1 := by omega
  rw [heq] at hq
  refine ⟨by omega, by omega, Or.inl ⟨?_, Or.inr ?_⟩⟩
  · show bp / n = (bp - 1) / n
    rw [hq.1]
  · show (bp - 1) % n + 1 = bp % n
    rw [hq.2]
    omega

lemma adj_up (n bp : Nat) (hn : 0 < n) (hbp : bp < n ^ 2) (hcc : 1 ≤ bp / n) :
    bp - n < n ^ 2 ∧ bp - n ≠ bp ∧ adjacentPos n bp (bp - n) := by
  have hd := Nat.div_add_mod bp n
  have hc : bp % n < n := Nat.mod_lt _ hn
  have hone : bp / n - 1 + 1 = bp / n := by omega
  have hmul : n * (bp / n - 1) + n = n * (bp / n) := by
    calc n * (bp / n - 1) + n = n * (bp / n - 1 + 1) := by ring
      _ = n * (bp / n) := by rw [hone]
  have hq := div_mod_decomp n (bp / n - 1) (bp % n) hn hc
  have heq : n * (bp / n - 1) + bp % n = bp - n := by omega
  rw [heq] at hq
  refine ⟨by omega, by omega, Or.inr ⟨?_, Or.inr ?_⟩⟩
  · show bp % n = (bp - n) % n
    rw [hq.2]
  · show (bp - n) / n + 1 = bp / n
    rw [hq.1]
    omega

/-- C3: for every valid state the generator returns between 0 and 4
states; each returned state differs from the input by exactly one swap
of the blank with the tile at an adjacent board position (all other
cells unchanged, sizes equal, blank cached at the destination), and no
returned state equals the input. -/
theorem c3_successor_swap (s : GemPuzzleState) (hv : s.Valid) :
    (get_successors s).length ≤ 4 ∧
      ∀ t ∈ get_successors s, ∃ j, j < s.size ^ 2 ∧ j ≠ s.blank_pos ∧
        adjacentPos s.size s.blank_pos j ∧ t.size = s.size ∧ t.blank_pos = j ∧
          t.tile_list.length = s.tile_list.length ∧
          t.tile_list[s.blank_pos]? = s.tile_list[j]? ∧
          t.tile_list[j]? = s.tile_list[s.blank_pos]? ∧
          (∀ k, k ≠ s.blank_pos → k ≠ j → t.tile_list[k]? = s.tile_list[k]?) ∧
          t.tile_list ≠ s.tile_list := by
  have hn : 0 < s.size := by
    have := hv.1
    omega
  have hbp : s.blank_pos < s.size ^ 2 := by
    have h1 := hv.2.1
    have h2 := hv.2.2.2.1
    omega
  constructor
  · rw [get_successors_length s hn hbp]
    split_ifs <;> omega
  · intro t ht
    rw [get_successors_eq s hn hbp] at ht
    simp only [List.mem_append] at ht
    rcases ht with h | h | h | h
    · have hcase : s.blank_pos % s.size + 1 < s.size ∧ t = succAt s (s.blank_pos + 1) := by
        by_cases hc : s.blank_pos % s.size + 1 < s.size
        · rw [if_pos hc] at h
          exact ⟨hc, by simpa using h⟩
        · rw [if_neg hc] at h
          exact absurd h (List.not_mem_nil t)
      obtain ⟨hc, rfl⟩ := hcase
      obtain ⟨hj1, hj2, hj3⟩ := adj_right s.size s.blank_pos hn hbp hc
      obtain ⟨g1, g2, g3, g4, g5, g6, g7⟩ := succAt_spec s hv (s.blank_pos + 1) hj1 (by omega)
      exact ⟨s.blank_pos + 1, hj1, by omega, hj3, g1, g2, g3, g4, g5, g6, g7⟩
    · have hcase : s.blank_pos / s.size + 1 < s.size ∧ t = succAt s (s.blank_pos + s.size) := by
        by_cases hc : s.blank_pos / s.size + 1 < s.size
        · rw [if_pos hc] at h
          exact ⟨hc, by simpa using h⟩
        · rw [if_neg hc] at h
          exact absurd h (List.not_mem_nil t)
      obtain ⟨hc, rfl⟩ := hcase
      obtain ⟨hj1, hj2, hj3⟩ := adj_down s.size s.blank_pos hn hbp hc
      obtain ⟨g1, g2, g3, g4, g5, g6, g7⟩ :=
        succAt_spec s hv (s.blank_pos + s.size) hj1 (by omega)
      exact ⟨s.blank_pos + s.size, hj1, by omega, hj3, g1, g2, g3, g4, g5, g6, g7⟩
    · have hcase : 1 ≤ s.blank_pos % s.size ∧ t = succAt s (s.blank_pos - 1) := by
        by_cases hc : 1 ≤ s.blank_pos % s.size
        · rw [if_pos hc] at h
          exact ⟨hc, by simpa using h⟩
        · rw [if_neg hc] at h
          exact absurd h (List.not_mem_nil t)
      obtain ⟨hc, rfl⟩ := hcase
      obtain ⟨hj1, hj2, hj3⟩ := adj_left s.size s.blank_pos hn hbp hc
      obtain ⟨g1, g2, g3, g4, g5, g6, g7⟩ := succAt_spec s hv (s.blank_pos - 1) hj1 (by omega)
      exact ⟨s.blank_pos - 1, hj1, by omega, hj3, g1, g2, g3, g4, g5, g6, g7⟩
    · have hcase : 1 ≤ s.blank_pos / s.size ∧ t = succAt s (s.blank_pos - s.size) := by
        by_cases hc : 1 ≤ s.blank_pos / s.size
        · rw [if_pos hc] at h
          exact ⟨hc, by simpa using h⟩
        · rw [if_neg hc] at h
          exact absurd h (List.not_mem_nil t)
      obtain ⟨hc, rfl⟩ := hcase
      obtain ⟨hj1, hj2, hj3⟩ := adj_up s.size s.blank_pos hn hbp hc
      obtain ⟨g1, g2, g3, g4, g5, g6, g7⟩ :=
        succAt_spec s hv (s.blank_pos - s.size) hj1 (by omega)
      exact ⟨s.blank_pos - s.size, hj1, by omega, hj3, g1, g2, g3, g4, g5, g6, g7⟩

theorem c3_witness :
    (get_successors { size := 2, tile_list := [1, 2, 3, 4], blank_pos := 3 }).length ≤ 4 ∧
      ∀ t ∈ get_successors { size := 2, tile_list := [1, 2, 3, 4], blank_pos := 3 },
        ∃ j, j < 2 ^ 2 ∧ j ≠ 3 ∧ adjacentPos 2 3 j ∧ t.size = 2 ∧ t.blank_pos = j ∧
          t.tile_list.length = ([1, 2, 3, 4] : List Nat).length ∧
          t.tile_list[3]? = ([1, 2, 3, 4] : List Nat)[j]? ∧
          t.tile_list[j]? = ([1, 2, 3, 4] : List Nat)[3]? ∧
          (∀ k, k ≠ 3 → k ≠ j → t.tile_list[k]? = ([1, 2, 3, 4] : List Nat)[k]?) ∧
          t.tile_list ≠ [1, 2, 3, 4] :=
  c3_successor_swap { size := 2, tile_list := [1, 2, 3, 4], blank_pos := 3 } (by decide)

/-- C10: for every valid state (board size at least 2) the generator
returns at least 2 successors, so the spec's lower bound of 0 is never
attained. -/
theorem c10_at_least_two_successors (s : GemPuzzleState) (hv : s.Valid) :
    2 ≤ (get_successors s).length := by
  have hn2 := hv.1
  have hn : 0 < s.size := by omega
  have hbp : s.blank_pos < s.size ^ 2 := by
    have h1 := hv.2.1
    have h2 := hv.2.2.2.1
    omega
  have hc : s.blank_pos % s.size < s.size := Nat.mod_lt _ hn
  have hr : s.blank_pos / s.size < s.size := blank_div_lt s hbp
  rw [get_successors_length s hn hbp]
  split_ifs <;> omega

theorem c10_witness :
    2 ≤ (get_successors { size := 2, tile_list := [1, 2, 3, 4], blank_pos := 3 }).length :=
  c10_at_least_two_successors { size := 2, tile_list := [1, 2, 3, 4], blank_pos := 3 } (by decide)

/-! ### C7: Manhattan distance is symmetric on valid states -/

lemma tileDist_comm (size a b : Nat) : tileDist size a b = tileDist size b a := by
  rw [tileDist, tileDist, Nat.dist_comm (a / size), Nat.dist_comm (a % size)]

lemma sumDistances_eq (size bv : Nat) (f : Nat → Option Nat) (g idx1 : Nat → Nat) :
    ∀ P : List (Nat × Nat),
      (∀ p ∈ P, p.2 ≠ bv → f p.2 = some (g p.2) ∧ p.1 = idx1 p.2) →
      sumDistances size bv f P =
        some ((((P.map Prod.snd).filter (fun t => t ≠ bv)).map
          (fun t => tileDist size (idx1 t) (g t))).sum)
  | [], _ => by simp [sumDistances]
  | (i, t) :: P, h => by
    have ih := sumDistances_eq size bv f g idx1 P fun p hp => h p (List.mem_cons_of_mem _ hp)
    by_cases ht : t = bv
    · simp [sumDistances, ht, ih]
    · obtain ⟨hf, hi⟩ := h (i, t) (List.mem_cons_self _ _) ht
      have hf' : f t = some (g t) := hf
      have hi' : i = idx1 t := hi
      simp [sumDistances, ht, hf', ih, hi']

lemma dictLookup_of_mem {t v : Nat} :
    ∀ L : List (Nat × Nat), (L.map Prod.fst).Nodup → (t, v) ∈ L → dictLookup t L = some v
  | [], _, hmem => absurd hmem (List.not_mem_nil _)
  | (a, b) :: L, hnd, hmem => by
    rw [List.map_cons, List.nodup_cons] at hnd
    rcases List.mem_cons.mp hmem with heq | htail
    · cases heq
      simp [dictLookup]
    · have hne : a ≠ t := by
        intro heq
        apply hnd.1
        rw [heq]
        exact List.mem_map.mpr ⟨(t, v), htail, rfl⟩
      simp [dictLookup, hne, dictLookup_of_mem L hnd.2 htail]

lemma mdPositions_keys (bv : Nat) (P : List (Nat × Nat)) :
    (P.filterMap (fun p => if p.2 ≠ bv then some (p.2, p.1) else none)).map Prod.fst =
      (P.map Prod.snd).filter (fun t => t ≠ bv) := by
  induction P with
  | nil => rfl
  | cons p P ih =>
    simp only [List.filterMap_cons]
    split
    · rename_i hcond
      have hp : p.2 = bv := by
        by_cases hc : p.2 = bv
        · exact hc
        · simp [hc] at hcond
      simp only [List.map_cons, List.filter_cons]
      rw [if_neg (by simp [hp])]
      exact ih
    · rename_i b hcond
      have hp : p.2 ≠ bv := by
        intro hc
        simp [hc] at hcond
      have hb : b = (p.2, p.1) := by
        simp [hp] at hcond
        exact hcond.symm
      subst hb
      simp only [List.map_cons, List.filter_cons]
      rw [if_pos (by simpa using hp)]
      congr 1

lemma positions_lookup (tiles : List Nat) (bv t : Nat) (hnd : tiles.Nodup)
    (hmem : t ∈ tiles) (hne : t ≠ bv) :
    dictLookup t (mdPositionsList bv tiles).reverse = some (tiles.indexOf t) := by
  apply dictLookup_of_mem
  · rw [List.map_reverse, List.nodup_reverse, mdPositionsList, mdPositions_keys,
      List.enum_map_snd]
    exact hnd.filter _
  · rw [List.mem_reverse, mdPositionsList]
    apply List.mem_filterMap.mpr
    refine ⟨(tiles.indexOf t, t), ?_, ?_⟩
    · rw [List.mk_mem_enum_iff_getElem?]
      exact List.getElem?_indexOf hmem
    · simp [hne]

lemma manhattan_distance_eq (s1 s2 : GemPuzzleState) (hv1 : s1.Valid) (hv2 : s2.Valid)
    (hsz : s1.size = s2.size) :
    manhattan_distance s1 s2 = some
      (((List.range' 1 (s1.size ^ 2 - 1)).map
        (fun t => tileDist s1.size (s1.tile_list.indexOf t) (s2.tile_list.indexOf t))).sum) := by
  obtain ⟨hsza, hlen1, hperm1, hbp1, hblank1⟩ := hv1
  obtain ⟨hszb, hlen2, hperm2, hbp2, hblank2⟩ := hv2
  have hnd1 := perm_range'_nodup hperm1
  have hnd2 := perm_range'_nodup hperm2
  simp only [manhattan_distance]
  rw [hlen1]
  rw [sumDistances_eq s1.size (s1.size ^ 2)
    (fun tile => dictLookup tile (mdPositionsList (s1.size ^ 2) s2.tile_list).reverse)
    (fun t => s2.tile_list.indexOf t) (fun t => s1.tile_list.indexOf t) s1.tile_list.enum ?_]
  · rw [List.enum_map_snd]
    have h1sq : 1 ≤ s1.size ^ 2 := by
      rw [Nat.pow_two]
      nlinarith
    have hfil2 : (List.range' 1 (s1.size ^ 2)).filter (fun t => t ≠ s1.size ^ 2) =
        List.range' 1 (s1.size ^ 2 - 1) := range'_filter_last _ h1sq
    have hperm3 : (s1.tile_list.filter (fun t => t ≠ s1.size ^ 2)).Perm
        (List.range' 1 (s1.size ^ 2 - 1)) := by
      rw [← hfil2]
      exact hperm1.filter _
    congr 1
    exact ((hperm3.map _).sum_eq)
  · intro p hp hne
    have hget : s1.tile_list[p.1]? = some p.2 := by
      rw [← List.mk_mem_enum_iff_getElem?]
      exact hp
    have hmem1 : p.2 ∈ s1.tile_list := by
      have hlt : p.1 < s1.tile_list.length := by
        by_contra hc
        rw [List.getElem?_eq_none (by omega)] at hget
        exact absurd hget (by simp)
      rw [List.getElem?_eq_getElem hlt] at hget
      rw [← Option.some_injective _ hget]
      exact List.getElem_mem _
    have hmem2 : p.2 ∈ s2.tile_list := by
      apply hperm2.symm.subset
      rw [← hsz]
      exact hperm1.subset hmem1
    constructor
    · exact positions_lookup s2.tile_list (s1.size ^ 2) p.2 hnd2 hmem2 hne
    · exact (indexOf_of_getElem? hnd1 hget).symm

/-- C7: on valid states of equal size the Manhattan-distance heuristic
is symmetric: evaluating `(A, B)` and `(B, A)` gives the same result. -/
theorem c7_manhattan_symmetric (A B : GemPuzzleState) (hvA : A.Valid) (hvB : B.Valid)
    (hsz : A.size = B.size) :
    manhattan_distance A B = manhattan_distance B A := by
  rw [manhattan_distance_eq A B hvA hvB hsz, manhattan_distance_eq B A hvB hvA hsz.symm]
  rw [hsz]
  congr 1
  congr 1
  apply List.map_congr_left
  intro t _
  exact tileDist_comm _ _ _

theorem c7_witness :
    manhattan_distance { size := 2, tile_list := [2, 1, 3, 4], blank_pos := 3 }
        { size := 2, tile_list := [1, 2, 3, 4], blank_pos := 3 } =
      manhattan_distance { size := 2, tile_list := [1, 2, 3, 4], blank_pos := 3 }
        { size := 2, tile_list := [2, 1, 3, 4], blank_pos := 3 } :=
  c7_manhattan_symmetric { size := 2, tile_list := [2, 1, 3, 4], blank_pos := 3 }
    { size := 2, tile_list := [1, 2, 3, 4], blank_pos := 3 } (by decide) (by decide) rfl
